import Mathlib

/-!
Shallow embedding of the replication engine of P4Transfer (src/P4Transfer.py)
and proofs about its behaviour.  Python strings are modelled as `String` or
`List Char`, Python ints as `Int`/`Nat`, p4 server answers as explicit oracle
parameters, and fallible paths as `Option` values or abort flags.
-/

namespace P4T

/-! ### escapeWildCards (src/P4Transfer.py lines 460-470) -/

/-- Model of Python `s.replace(old, new)` on character lists:
replace non-overlapping occurrences of `old` left to right. -/
def pyReplace (old new : List Char) : List Char → List Char
  | [] => []
  | c :: rest =>
    if h : old ≠ [] ∧ old.isPrefixOf (c :: rest) then
      new ++ pyReplace old new ((c :: rest).drop old.length)
    else
      c :: pyReplace old new rest
termination_by s => s.length
decreasing_by
  · simp only [List.length_drop, List.length_cons]
    have h1 : 0 < old.length := List.length_pos.mpr h.1
    omega
  · simp only [List.length_cons]
    omega

theorem pyReplace_nil (old new : List Char) : pyReplace old new [] = [] := by
  simp [pyReplace]

theorem pyReplace_cons (old new : List Char) (c : Char) (rest : List Char) :
    pyReplace old new (c :: rest) =
      if old ≠ [] ∧ old.isPrefixOf (c :: rest) then
        new ++ pyReplace old new ((c :: rest).drop old.length)
      else c :: pyReplace old new rest := by
  rw [pyReplace]
  split <;> rfl

/-- Replacement of a single character by a string, the special case of
`pyReplace` used by `escapeWildCards` (all its patterns are one char). -/
def replaceChar (c : Char) (new : List Char) : List Char → List Char
  | [] => []
  | x :: rest => (if x = c then new else [x]) ++ replaceChar c new rest

/-- Executable substring check, modelling `re`-style search for a fixed
pattern. -/
def infixCheck (p : List Char) : List Char → Bool
  | [] => p.isEmpty
  | c :: rest => p.isPrefixOf (c :: rest) || infixCheck p rest

/-- The four escape sequences matched by the `alreadyEscaped` regex
`%25|%23|%40|%2A` (line 460). -/
def alreadyEscapedSeqs : List (List Char) :=
  [['%', '2', '5'], ['%', '2', '3'], ['%', '4', '0'], ['%', '2', 'A']]

/-- Model of `alreadyEscaped.findall(fname)` being non-empty: some escape
sequence occurs in the name. -/
def containsEscaped (s : List Char) : Bool :=
  alreadyEscapedSeqs.any (fun p => infixCheck p s)

/-- Embedding of `escapeWildCards` (lines 463-470): if no escape sequence is
already present, replace `%`, `#`, `@`, `*` in that order by their escapes. -/
def escapeWildCards (fname : List Char) : List Char :=
  if containsEscaped fname then fname
  else
    pyReplace ['*'] ['%', '2', 'A']
      (pyReplace ['@'] ['%', '4', '0']
        (pyReplace ['#'] ['%', '2', '3']
          (pyReplace ['%'] ['%', '2', '5'] fname)))

/-- Spec-side description of the claim's "every occurrence of %, #, @, * is
replaced by its escape sequence": the per-character escape map. -/
def escapeChar (c : Char) : List Char :=
  if c = '%' then ['%', '2', '5']
  else if c = '#' then ['%', '2', '3']
  else if c = '@' then ['%', '4', '0']
  else if c = '*' then ['%', '2', 'A']
  else [c]

/-- Simultaneous escaping of every wildcard character, the claim's wording. -/
def simEscape : List Char → List Char
  | [] => []
  | c :: rest => escapeChar c ++ simEscape rest

theorem pyReplace_single (c : Char) (new : List Char) (s : List Char) :
    pyReplace [c] new s = replaceChar c new s := by
  induction s with
  | nil => rw [pyReplace_nil]; rfl
  | cons x rest ih =>
    rw [pyReplace_cons, replaceChar]
    by_cases hx : x = c
    · subst hx
      rw [if_pos ⟨by simp, by simp [List.isPrefixOf]⟩]
      simp [ih]
    · rw [if_neg]
      · simp [hx, ih]
      · intro hcon
        have h2 := hcon.2
        simp only [List.isPrefixOf, Bool.and_eq_true, beq_iff_eq] at h2
        exact hx h2.1.symm

theorem replaceChar_append (c : Char) (new : List Char) (s t : List Char) :
    replaceChar c new (s ++ t) = replaceChar c new s ++ replaceChar c new t := by
  induction s with
  | nil => rfl
  | cons x rest ih => simp [replaceChar, ih]

theorem simEscape_append (s t : List Char) :
    simEscape (s ++ t) = simEscape s ++ simEscape t := by
  induction s with
  | nil => rfl
  | cons x rest ih => simp [simEscape, ih]

/-- The chained single-character replacements of `escapeWildCards` compute the
simultaneous escape map: later passes never touch characters introduced by
earlier passes. -/
theorem chain_eq_simEscape (f : List Char) :
    replaceChar '*' ['%', '2', 'A']
      (replaceChar '@' ['%', '4', '0']
        (replaceChar '#' ['%', '2', '3']
          (replaceChar '%' ['%', '2', '5'] f))) = simEscape f := by
  induction f with
  | nil => rfl
  | cons c rest ih =>
    have hstep : replaceChar '%' ['%', '2', '5'] (c :: rest)
        = (if c = '%' then ['%', '2', '5'] else [c])
          ++ replaceChar '%' ['%', '2', '5'] rest := rfl
    rw [hstep, replaceChar_append, replaceChar_append, replaceChar_append,
      simEscape, ← ih]
    congr 1
    by_cases h1 : c = '%'
    · subst h1; rfl
    · by_cases h2 : c = '#'
      · subst h2; rfl
      · by_cases h3 : c = '@'
        · subst h3; rfl
        · by_cases h4 : c = '*'
          · subst h4; rfl
          · simp [escapeChar, replaceChar, h1, h2, h3, h4]

/-- A character is one of the four wildcard characters. -/
def isWildChar (c : Char) : Bool :=
  c = '%' || c = '#' || c = '@' || c = '*'

theorem escapeChar_of_not_wild (c : Char) (h : isWildChar c = false) :
    escapeChar c = [c] := by
  simp only [isWildChar, Bool.or_eq_false_iff, decide_eq_false_iff_not] at h
  simp [escapeChar, h.1.1.1, h.1.1.2, h.1.2, h.2]

theorem simEscape_of_no_wild (f : List Char)
    (h : ∀ c ∈ f, isWildChar c = false) : simEscape f = f := by
  induction f with
  | nil => rfl
  | cons c rest ih =>
    rw [simEscape, escapeChar_of_not_wild c (h c (List.mem_cons_self c rest)),
      ih (fun x hx => h x (List.mem_cons_of_mem c hx))]
    rfl

theorem isPrefixOf_append (p t : List Char) : p.isPrefixOf (p ++ t) = true := by
  induction p with
  | nil => simp [List.isPrefixOf]
  | cons c rest ih => simp [List.isPrefixOf, ih]

theorem infixCheck_of_parts (p s t : List Char) :
    infixCheck p (s ++ p ++ t) = true := by
  induction s with
  | nil =>
    simp only [List.nil_append]
    cases hp : p with
    | nil => cases t <;> simp [infixCheck, List.isPrefixOf]
    | cons c rest =>
      have : (c :: rest) ++ t = c :: (rest ++ t) := rfl
      rw [this, infixCheck, ← this, ← hp, isPrefixOf_append]
      simp
  | cons c srest ih =>
    have : (c :: srest) ++ p ++ t = c :: (srest ++ p ++ t) := by simp
    rw [this, infixCheck, ih]
    simp

theorem escapeChar_mem_seqs (c : Char) (h : isWildChar c = true) :
    escapeChar c ∈ alreadyEscapedSeqs := by
  simp only [isWildChar, Bool.or_eq_true, decide_eq_true_eq] at h
  rcases h with (h | h) | h
  · rcases h with h | h <;> subst h <;> simp [escapeChar, alreadyEscapedSeqs]
  · subst h; simp [escapeChar, alreadyEscapedSeqs]
  · subst h; simp [escapeChar, alreadyEscapedSeqs]

theorem containsEscaped_simEscape (f : List Char) (c : Char) (hc : c ∈ f)
    (hw : isWildChar c = true) : containsEscaped (simEscape f) = true := by
  obtain ⟨s, t, rfl⟩ := List.append_of_mem hc
  have hsplit : simEscape (s ++ c :: t)
      = simEscape s ++ escapeChar c ++ simEscape t := by
    rw [simEscape_append]
    simp [simEscape]
  rw [hsplit]
  simp only [containsEscaped, List.any_eq_true]
  exact ⟨escapeChar c, escapeChar_mem_seqs c hw,
    infixCheck_of_parts (escapeChar c) (simEscape s) (simEscape t)⟩

/-- C10: `escapeWildCards` is idempotent; names already containing an escape
sequence are returned unchanged; otherwise every occurrence of `%`, `#`, `@`,
`*` is replaced by its escape sequence. -/
theorem escapeWildCards_idempotent (f : List Char) :
    escapeWildCards (escapeWildCards f) = escapeWildCards f ∧
    (containsEscaped f = true → escapeWildCards f = f) ∧
    (containsEscaped f = false → escapeWildCards f = simEscape f) := by
  have hchain : ∀ g : List Char, containsEscaped g = false →
      escapeWildCards g = simEscape g := by
    intro g hg
    rw [escapeWildCards, if_neg (by simp [hg]),
      pyReplace_single, pyReplace_single, pyReplace_single, pyReplace_single,
      chain_eq_simEscape]
  have hkeep : ∀ g : List Char, containsEscaped g = true →
      escapeWildCards g = g := by
    intro g hg
    rw [escapeWildCards, if_pos hg]
  refine ⟨?_, hkeep f, hchain f⟩
  by_cases h : containsEscaped f = true
  · rw [hkeep f h, hkeep f h]
  · have hf : containsEscaped f = false := Bool.eq_false_iff.mpr h
    rw [hchain f hf]
    by_cases hwild : f.any isWildChar = true
    · obtain ⟨c, hc, hcw⟩ := List.any_eq_true.mp hwild
      exact hkeep _ (containsEscaped_simEscape f c hc hcw)
    · have hall : ∀ c ∈ f, isWildChar c = false := by
        intro c hcf
        exact Bool.eq_false_iff.mpr
          (List.any_eq_false.mp (Bool.eq_false_iff.mpr hwild) c hcf)
      rw [simEscape_of_no_wild f hall, hchain f hf, simEscape_of_no_wild f hall]

/-- Concrete input for the C10 witness. -/
def exName : List Char := ['a', '#', 'b', '%']

theorem escapeWildCards_idempotent_witness :
    escapeWildCards (escapeWildCards exName) = escapeWildCards exName ∧
    escapeWildCards exName = simEscape exName :=
  ⟨(escapeWildCards_idempotent exName).1,
   (escapeWildCards_idempotent exName).2.2 (by decide)⟩

/-! ### getCounter (src/P4Transfer.py lines 2209-2217) and the start of the
missing-changes range (line 1142). -/

/-- Embedding of `P4Target.getCounter`: `stored` is the integer value of the
named counter on the target (`none` when the counter record is absent). -/
def getCounter (stored : Option Int) (historicalStartChange : Int) : Int :=
  let val : Int := match stored with
    | some v => v
    | none => 0
  if val = 0 ∧ 0 < historicalStartChange then historicalStartChange - 1
  else val

/-- Embedding of the start revision of the range read by
`P4Source.missingChanges` (line 1142): `@counter+1,#head`. -/
def missingChangesStartRev (counter : Int) : Int := counter + 1

/-- C9: `getCounter` returns the stored counter value, except that a stored 0
(or an absent counter) together with `historical_start_change > 0` yields
`historical_start_change - 1`, so the first change considered missing is the
historical start change itself. -/
theorem getCounter_spec (stored : Option Int) (h : Int) :
    (∀ v : Int, stored = some v → v ≠ 0 → getCounter stored h = v) ∧
    (0 < h → (stored = some 0 ∨ stored = none) →
      getCounter stored h = h - 1 ∧
      missingChangesStartRev (getCounter stored h) = h) ∧
    (¬ 0 < h → (stored = some 0 ∨ stored = none) → getCounter stored h = 0) := by
  refine ⟨?_, ?_, ?_⟩
  · intro v hv hv0
    subst hv
    simp [getCounter, hv0]
  · intro hpos hst
    rcases hst with h0 | h0 <;> subst h0 <;>
      simp [getCounter, missingChangesStartRev, hpos]
  · intro hpos hst
    rcases hst with h0 | h0 <;> subst h0 <;> simp [getCounter, hpos]

theorem getCounter_spec_witness :
    getCounter (some 17) 100 = 17 ∧
    (getCounter none 100 = 99 ∧ missingChangesStartRev (getCounter none 100) = 100) :=
  ⟨(getCounter_spec (some 17) 100).1 17 rfl (by decide),
   (getCounter_spec none 100).2.1 (by decide) (Or.inr rfl)⟩

/-! ### getKTextDigest (src/P4Transfer.py lines 533-560)

The MD5 state is modelled by the exact byte sequence fed to it (MD5 is a
pure function of that sequence), so the returned "digest" is the list of
characters passed to `m.update`. -/

/-- The keyword patterns of the `re_rcs_keywords` regex (line 534). -/
def rcsKeywords : List (List Char) :=
  [['$', 'I', 'd'],
   ['$', 'H', 'e', 'a', 'd', 'e', 'r'],
   ['$', 'D', 'a', 't', 'e'],
   ['$', 'C', 'h', 'a', 'n', 'g', 'e'],
   ['$', 'F', 'i', 'l', 'e'],
   ['$', 'R', 'e', 'v', 'i', 's', 'i', 'o', 'n'],
   ['$', 'A', 'u', 't', 'h', 'o', 'r']]

/-- Model of `re_rcs_keywords.search` returning a match. -/
def hasKeyword (s : List Char) : Bool :=
  rcsKeywords.any (fun k => infixCheck k s)

/-- The claim's keyword list, which also names `$DateTime` explicitly. -/
def claimKeywords : List (List Char) :=
  rcsKeywords ++ [['$', 'D', 'a', 't', 'e', 'T', 'i', 'm', 'e']]

/-- Keyword test with the claim's eight keywords. -/
def hasClaimKeyword (s : List Char) : Bool :=
  claimKeywords.any (fun k => infixCheck k s)

/-- Model of Python `contents.split("\n")`. -/
def splitLines : List Char → List (List Char)
  | [] => [[]]
  | c :: rest =>
    if c = '\n' then [] :: splitLines rest
    else
      match splitLines rest with
      | [] => [[c]]
      | l :: ls => (c :: l) :: ls

/-- Embedding of `getKTextDigest` (lines 537-560).  `contents` is the decoded
file text, `diskSize` is `os.path.getsize(fname)`.  Returns the reported
file size and the byte sequence fed to the MD5 digest. -/
def getKTextDigest (contents : List Char) (diskSize : Nat) : Nat × List Char :=
  if hasKeyword contents = false then (diskSize, contents)
  else
    (splitLines contents).foldl
      (fun acc line =>
        if hasKeyword line = false then (acc.1 + line.length, acc.2 ++ line)
        else acc)
      (0, [])

theorem isPrefixOf_exists {p s : List Char} (h : p.isPrefixOf s = true) :
    ∃ t, s = p ++ t := by
  induction p generalizing s with
  | nil => exact ⟨s, rfl⟩
  | cons c rest ih =>
    cases s with
    | nil => simp [List.isPrefixOf] at h
    | cons d srest =>
      simp only [List.isPrefixOf, Bool.and_eq_true, beq_iff_eq] at h
      obtain ⟨t, ht⟩ := ih h.2
      exact ⟨t, by rw [List.cons_append, ← ht, h.1]⟩

theorem infixCheck_exists {p s : List Char} (h : infixCheck p s = true) :
    ∃ u v, s = u ++ p ++ v := by
  induction s with
  | nil =>
    simp only [infixCheck, List.isEmpty_iff] at h
    exact ⟨[], [], by simp [h]⟩
  | cons c rest ih =>
    rw [infixCheck, Bool.or_eq_true] at h
    rcases h with h | h
    · obtain ⟨t, ht⟩ := isPrefixOf_exists h
      exact ⟨[], t, by simp [ht]⟩
    · obtain ⟨u, v, huv⟩ := ih h
      exact ⟨c :: u, v, by simp [huv]⟩

/-- A line containing `$DateTime` contains `$Date`, so the source's seven
patterns decide the same predicate as the claim's eight keywords. -/
theorem hasClaimKeyword_eq_hasKeyword (s : List Char) :
    hasClaimKeyword s = hasKeyword s := by
  rw [hasClaimKeyword, claimKeywords, List.any_append]
  have hdt : (List.any [['$', 'D', 'a', 't', 'e', 'T', 'i', 'm', 'e']]
      fun k => infixCheck k s) = true → hasKeyword s = true := by
    intro h
    simp only [List.any_cons, List.any_nil, Bool.or_false] at h
    obtain ⟨u, v, huv⟩ := infixCheck_exists h
    have hd : s = u ++ ['$', 'D', 'a', 't', 'e'] ++ (['T', 'i', 'm', 'e'] ++ v) := by
      rw [huv]; simp
    rw [hasKeyword, List.any_eq_true]
    refine ⟨['$', 'D', 'a', 't', 'e'], by simp [rcsKeywords], ?_⟩
    rw [hd]
    exact infixCheck_of_parts _ _ _
  cases hkw : hasKeyword s
  · cases hdtv : List.any [['$', 'D', 'a', 't', 'e', 'T', 'i', 'm', 'e']]
        fun k => infixCheck k s
    · rw [hasKeyword] at hkw
      simp [hkw]
    · exact absurd (hdt hdtv) (by simp [hkw])
  · rw [hasKeyword] at hkw
    simp [hkw]

theorem getKTextDigest_foldl (lines : List (List Char)) (n : Nat) (acc : List Char) :
    lines.foldl
      (fun acc line =>
        if hasKeyword line = false then (acc.1 + line.length, acc.2 ++ line)
        else acc)
      (n, acc) =
    (n + ((lines.filter fun l => !hasKeyword l).map List.length).sum,
     acc ++ (lines.filter fun l => !hasKeyword l).flatten) := by
  induction lines generalizing n acc with
  | nil => simp
  | cons line rest ih =>
    cases hline : hasKeyword line
    · simp only [List.foldl_cons, hline, if_pos rfl, List.filter_cons, Bool.not_false,
        if_pos trivial, List.map_cons, List.sum_cons, List.flatten_cons]
      rw [ih]
      simp [Nat.add_assoc, List.append_assoc]
    · simp only [List.foldl_cons, hline, List.filter_cons, Bool.not_true]
      rw [if_neg (by simp), ih]
      simp

/-- C4: for keyword-expanded text files the digest is computed over exactly
the lines free of the RCS keywords (the claim's eight keywords, `$DateTime`
included) and the reported size is the sum of the kept lines' lengths; when
no keyword occurs in the whole file the digest covers the full contents and
the size is the on-disk size. -/
theorem getKTextDigest_spec (contents : List Char) (diskSize : Nat) :
    (hasKeyword contents = false →
      getKTextDigest contents diskSize = (diskSize, contents)) ∧
    (hasKeyword contents = true →
      getKTextDigest contents diskSize =
        ((((splitLines contents).filter fun l => !hasClaimKeyword l).map
            List.length).sum,
         ((splitLines contents).filter fun l => !hasClaimKeyword l).flatten)) := by
  constructor
  · intro h
    rw [getKTextDigest, if_pos h]
  · intro h
    rw [getKTextDigest, if_neg (by simp [h]), getKTextDigest_foldl]
    have hfun : (fun l => !hasClaimKeyword l) = (fun l => !hasKeyword l) := by
      funext l
      rw [hasClaimKeyword_eq_hasKeyword]
    rw [hfun]
    simp

/-- Concrete ktext contents for the C4 witness: `a\n$Id x\nb`. -/
def exKText : List Char :=
  ['a', '\n', '$', 'I', 'd', ' ', 'x', '\n', 'b']

theorem getKTextDigest_spec_witness :
    getKTextDigest exKText 42 =
      ((((splitLines exKText).filter fun l => !hasClaimKeyword l).map
          List.length).sum,
       ((splitLines exKText).filter fun l => !hasClaimKeyword l).flatten) :=
  (getKTextDigest_spec exKText 42).2 (by decide)

/-! ### ChangeRevision equality (src/P4Transfer.py lines 616-770) -/

/-- Integration record attached to a revision (fields used by the engine:
`how`, `file`, `localFile` — `None` when the source path is outside the
client view — and the revision range `srev`/`erev`). -/
structure Integration where
  how : String
  file : String
  localFile : Option String
  srev : Int
  erev : Int
deriving DecidableEq

/-- File revision data carried by a `ChangeRevision` object.  `fileSize` and
`digest` are the tagged strings returned by the server (`p4 describe`); the
integration list is `_integrations`. -/
structure ChangeRevision where
  rev : String
  action : String
  type : String
  depotFile : String
  localFile : String
  fileSize : String
  digest : String
  integrations : List Integration
deriving DecidableEq

/-- The old-style to canonical filetype map (lines 106-122). -/
def canonicalTypes : List (String × String) :=
  [("xtext", "text+x"), ("ktext", "text+k"), ("kxtext", "text+kx"),
   ("xbinary", "binary+x"), ("ctext", "text+C"), ("cxtext", "text+Cx"),
   ("ltext", "text+F"), ("xltext", "text+Fx"), ("ubinary", "binary+F"),
   ("uxbinary", "binary+Fx"), ("tempobj", "binary+FSw"),
   ("ctempobj", "binary+Sw"), ("xtempobj", "binary+FSwx"),
   ("xunicode", "unicode+x"), ("xutf16", "utf16+x")]

/-- Embedding of `ChangeRevision.canonicalType` (lines 743-747). -/
def canonicalType (cr : ChangeRevision) : String :=
  match List.lookup cr.type canonicalTypes with
  | some t => t
  | none => cr.type

/-- Embedding of `isText` (lines 449-453): `re.search("text", ftype)`. -/
def isText (ftype : String) : Bool :=
  infixCheck ['t', 'e', 'x', 't'] ftype.toList

/-- Embedding of `fileContentComparisonPossible` (lines 473-479); the
`compatible` argument stands for the global
`sourceTargetTextComparison.compatible()`. -/
def fileContentComparisonPossible (compatible : Bool) (ftype : String) : Bool :=
  if !isText ftype then true
  else if ftype.toList.contains 'k' then false
  else compatible

/-- The fixed digest of purged file placeholders (line 761). -/
def purgedDigest : String := "08F48C3930677CB9C7F42E5248D560D4"

/-- Decimal digit parser used to model Python `int(...)` on server-supplied
revision size strings. -/
def digitsToNat : List Char → Option Nat
  | [] => none
  | l => l.foldl
      (fun acc c =>
        acc.bind fun n =>
          if c.isDigit then some (n * 10 + (c.toNat - '0'.toNat)) else none)
      (some 0)

/-- Model of Python `int(s)` on a string (failure is `none`, modelling the
raised `ValueError`). -/
def pyInt (s : String) : Option Int :=
  match s.toList with
  | '-' :: rest => (digitsToNat rest).map (fun n => -(n : Int))
  | l => (digitsToNat l).map (fun n => (n : Int))

/-- Content part of `ChangeRevision.__eq__` (lines 757-770), after the
filename check has passed.  `none` models an uncaught Python exception (from
`int()` on a non-numeric size). -/
def chRevEqContent (compatible : Bool) (a b : ChangeRevision) : Option Bool :=
  if a.action = "purge" ∨ b.action = "purge" then some true
  else if (a.fileSize = "11" ∧ a.digest = purgedDigest) ∨
      (b.fileSize = "11" ∧ b.digest = purgedDigest) then some true
  else if fileContentComparisonPossible compatible a.type = true then
    if (a.fileSize, a.digest, canonicalType a) ≠
        (b.fileSize, b.digest, canonicalType b) then
      if a.type = "utf16" then
        match pyInt a.fileSize, pyInt b.fileSize with
        | some x, some y => some (decide ((x - y).natAbs < 5))
        | _, _ => none
      else some false
    else some true
  else some true

/-- Embedding of `ChangeRevision.__eq__` (lines 749-770). -/
def chRevEq (compatible caseSensitive : Bool) (a b : ChangeRevision) :
    Option Bool :=
  if caseSensitive then
    if a.localFile ≠ b.localFile then some false
    else chRevEqContent compatible a b
  else
    if a.localFile.toLower ≠ b.localFile.toLower then some false
    else chRevEqContent compatible a b

/-- C5: a `purge` action on either side, or the purged-file marker (size
string "11" with the fixed purged digest) on either side, makes the
comparison succeed regardless of the other side's size, digest or type,
provided the filenames match. -/
theorem chRevEq_purged (compatible caseSensitive : Bool) (a b : ChangeRevision)
    (hname : a.localFile = b.localFile)
    (hp : a.action = "purge" ∨ b.action = "purge" ∨
      (a.fileSize = "11" ∧ a.digest = purgedDigest) ∨
      (b.fileSize = "11" ∧ b.digest = purgedDigest)) :
    chRevEq compatible caseSensitive a b = some true := by
  have hbody : chRevEqContent compatible a b = some true := by
    rw [chRevEqContent]
    by_cases hpur : a.action = "purge" ∨ b.action = "purge"
    · rw [if_pos hpur]
    · rw [if_neg hpur]
      rcases hp with h | h | h | h
      · exact absurd (Or.inl h) hpur
      · exact absurd (Or.inr h) hpur
      · rw [if_pos (Or.inl h)]
      · rw [if_pos (Or.inr h)]
  rw [chRevEq]
  cases caseSensitive <;> simp [hname, hbody]

theorem chRevEq_purged_witness :
    chRevEq true true
      {rev := "3", action := "purge", type := "text+S", depotFile := "//d/a",
       localFile := "//c/a", fileSize := "999", digest := "AA",
       integrations := []}
      {rev := "3", action := "edit", type := "binary", depotFile := "//d/a",
       localFile := "//c/a", fileSize := "11", digest := "BB",
       integrations := []} = some true :=
  chRevEq_purged true true _ _ rfl (Or.inl rfl)

/-- C6: for revisions of type `utf16` with matching filenames whose
(size, digest, canonical type) tuples differ, the comparison still succeeds
whenever the sizes differ by fewer than 5 bytes. -/
theorem chRevEq_utf16 (compatible caseSensitive : Bool) (a b : ChangeRevision)
    (hname : a.localFile = b.localFile)
    (ha : a.type = "utf16") (hb : b.type = "utf16")
    (x y : Int) (hx : pyInt a.fileSize = some x) (hy : pyInt b.fileSize = some y)
    (hne : (a.fileSize, a.digest, canonicalType a) ≠
      (b.fileSize, b.digest, canonicalType b))
    (hdiff : (x - y).natAbs < 5) :
    chRevEq compatible caseSensitive a b = some true := by
  have hbody : chRevEqContent compatible a b = some true := by
    rw [chRevEqContent]
    by_cases h1 : a.action = "purge" ∨ b.action = "purge"
    · rw [if_pos h1]
    · rw [if_neg h1]
      by_cases h2 : (a.fileSize = "11" ∧ a.digest = purgedDigest) ∨
          (b.fileSize = "11" ∧ b.digest = purgedDigest)
      · rw [if_pos h2]
      · rw [if_neg h2]
        have hposs : fileContentComparisonPossible compatible a.type = true := by
          rw [ha]
          cases compatible <;> decide
        rw [if_pos hposs, if_pos hne, if_pos ha, hx, hy]
        simp [hdiff]
  rw [chRevEq]
  cases caseSensitive <;> simp [hname, hbody]

theorem chRevEq_utf16_witness :
    chRevEq false true
      {rev := "1", action := "edit", type := "utf16", depotFile := "//d/u",
       localFile := "//c/u", fileSize := "102", digest := "AA",
       integrations := []}
      {rev := "1", action := "edit", type := "utf16", depotFile := "//d/u",
       localFile := "//c/u", fileSize := "100", digest := "BB",
       integrations := []} = some true :=
  chRevEq_utf16 false true _ _ rfl rfl rfl 102 100 (by decide) (by decide)
    (by decide) (by decide)

/-! ### MoveTracker (src/P4Transfer.py lines 1061-1105)

The Python dicts `self.adds` / `self.deletes` preserve insertion order and
have unique keys (`trackAdd` asserts the key is fresh; `trackDelete` keys by
the revision's own depot path), so they are modelled as association lists.
`specialMovesSupported()` is the boolean parameter `specialOk`. -/

/-- Membership of a key in an association list (Python `k in dict`). -/
def hasKey (k : String) (m : List (String × ChangeRevision)) : Bool :=
  m.any (fun kv => kv.1 = k)

/-- Removal of a key from an association list (Python `del dict[k]`). -/
def delKey (k : String) : List (String × ChangeRevision) →
    List (String × ChangeRevision)
  | [] => []
  | kv :: rest => if kv.1 = k then rest else kv :: delKey k rest

/-- The loop over `self.adds` in `MoveTracker.getMoves` (lines 1090-1099):
returns the processed add revisions in order, the accumulated special moves,
and the remaining (unmatched) deletes. -/
def getMovesLoop (specialOk : Bool) :
    List (String × ChangeRevision) → List (String × ChangeRevision) →
    List ChangeRevision × List ChangeRevision × List (String × ChangeRevision)
  | [], deletes => ([], [], deletes)
  | (k, cr) :: rest, deletes =>
    if hasKey k deletes then
      let r := getMovesLoop specialOk rest (delKey k deletes)
      (cr :: r.1, r.2.1, r.2.2)
    else if specialOk then
      let r := getMovesLoop specialOk rest deletes
      (cr :: r.1, cr :: r.2.1, r.2.2)
    else
      let r := getMovesLoop specialOk rest deletes
      ({cr with action := "add"} :: r.1, r.2.1, r.2.2)

/-- Embedding of `MoveTracker.getMoves` (lines 1087-1105): the add loop,
then the leftover deletes get action `delete` and are appended; returns
`(results, specialMoves)`. -/
def getMoves (specialOk : Bool)
    (adds deletes : List (String × ChangeRevision)) :
    List ChangeRevision × List ChangeRevision :=
  let r := getMovesLoop specialOk adds deletes
  (r.1 ++ r.2.2.map (fun kv => {kv.2 with action := "delete"}), r.2.1)

theorem hasKey_iff {k : String} {m : List (String × ChangeRevision)} :
    hasKey k m = true ↔ ∃ kv ∈ m, kv.1 = k := by
  simp [hasKey]

theorem hasKey_false {k : String} {m : List (String × ChangeRevision)}
    (h : hasKey k m = false) : ∀ kv ∈ m, kv.1 ≠ k := by
  intro kv hkv
  simp only [hasKey, List.any_eq_false, decide_eq_true_eq] at h
  exact h kv hkv

theorem filter_of_no_key {k : String} {m : List (String × ChangeRevision)}
    (h : ∀ kv ∈ m, kv.1 ≠ k) :
    m.filter (fun kv => !(kv.1 = k : Bool)) = m := by
  rw [List.filter_eq_self]
  intro kv hkv
  simp [h kv hkv]

theorem delKey_eq_filter {k : String} {m : List (String × ChangeRevision)}
    (hm : (m.map Prod.fst).Nodup) :
    delKey k m = m.filter (fun kv => !(kv.1 = k : Bool)) := by
  induction m with
  | nil => rfl
  | cons kv rest ih =>
    rw [List.map_cons, List.nodup_cons] at hm
    rw [delKey, List.filter_cons]
    by_cases hk : kv.1 = k
    · rw [if_pos hk]
      have hcond : (!(kv.1 = k : Bool)) = false := by simp [hk]
      rw [hcond, if_neg (by simp)]
      refine (filter_of_no_key ?_).symm
      intro kv2 hkv2 hc
      refine hm.1 ?_
      have : kv2.1 ∈ List.map Prod.fst rest := List.mem_map_of_mem Prod.fst hkv2
      rw [hc, ← hk] at this
      exact this
    · rw [if_neg hk]
      have hcond : (!(kv.1 = k : Bool)) = true := by simp [hk]
      rw [hcond, if_pos rfl, ih hm.2]

theorem nodup_delKey {k : String} {m : List (String × ChangeRevision)}
    (hm : (m.map Prod.fst).Nodup) :
    ((delKey k m).map Prod.fst).Nodup := by
  rw [delKey_eq_filter hm]
  exact ((List.filter_sublist m).map Prod.fst).nodup hm

theorem hasKey_cons {k2 : String} {k : String} {cr : ChangeRevision}
    {rest : List (String × ChangeRevision)} :
    hasKey k2 ((k, cr) :: rest) = ((k = k2 : Bool) || hasKey k2 rest) := by
  simp [hasKey]

theorem hasKey_delKey {k k2 : String} {m : List (String × ChangeRevision)}
    (hne : k ≠ k2) (hm : (m.map Prod.fst).Nodup) :
    hasKey k (delKey k2 m) = hasKey k m := by
  rw [delKey_eq_filter hm]
  cases hk : hasKey k m
  · have := hasKey_false hk
    simp only [hasKey, List.any_eq_false, decide_eq_true_eq] at hk ⊢
    intro kv hkv
    exact hk kv (List.mem_of_mem_filter hkv)
  · rw [hasKey_iff] at hk ⊢
    obtain ⟨kv, hkv, hkvk⟩ := hk
    refine ⟨kv, List.mem_filter.mpr ⟨hkv, ?_⟩, hkvk⟩
    have hne2 : kv.1 ≠ k2 := by rw [hkvk]; exact hne
    simp [hne2]

theorem getMovesLoop_spec (specialOk : Bool)
    (adds : List (String × ChangeRevision)) :
    ∀ deletes : List (String × ChangeRevision),
    (adds.map Prod.fst).Nodup → (deletes.map Prod.fst).Nodup →
    getMovesLoop specialOk adds deletes =
      (adds.map (fun kv =>
        if hasKey kv.1 deletes then kv.2
        else if specialOk then kv.2 else {kv.2 with action := "add"}),
       if specialOk then
         (adds.filter (fun kv => !hasKey kv.1 deletes)).map Prod.snd
       else [],
       deletes.filter (fun kv => !hasKey kv.1 adds)) := by
  induction adds with
  | nil =>
    intro deletes _ _
    rw [getMovesLoop]
    have : deletes.filter (fun kv => !hasKey kv.1 []) = deletes :=
      List.filter_eq_self.mpr (fun kv _ => by simp [hasKey])
    rw [this]
    cases specialOk <;> simp
  | cons hd rest ih =>
    intro deletes hA hD
    obtain ⟨k, cr⟩ := hd
    rw [List.map_cons, List.nodup_cons] at hA
    have hA1 : k ∉ List.map Prod.fst rest := hA.1
    have hknotin : ∀ kv ∈ rest, kv.1 ≠ k := by
      intro kv hkv hc
      refine hA1 ?_
      rw [← hc]
      exact List.mem_map_of_mem Prod.fst hkv
    cases hmatch : hasKey k deletes
    · have hdelnok : ∀ kv ∈ deletes, kv.1 ≠ k := hasKey_false hmatch
      have hrest := ih deletes hA.2 hD
      have hfiltercongr :
          deletes.filter (fun kv => !hasKey kv.1 rest) =
          deletes.filter (fun kv => !hasKey kv.1 ((k, cr) :: rest)) := by
        refine List.filter_congr ?_
        intro kv hkv
        rw [hasKey_cons]
        have hck : (k = kv.1 : Bool) = false := by
          simp [Ne.symm (hdelnok kv hkv)]
        rw [hck, Bool.false_or]
      rw [getMovesLoop, if_neg (by simp [hmatch])]
      cases specialOk
      · rw [if_neg (by simp), hrest]
        simp only [Prod.mk.injEq]
        refine ⟨?_, ?_, hfiltercongr⟩
        · rw [List.map_cons]
          congr 1
          simp [hmatch]
        · simp
      · rw [if_pos rfl, hrest]
        simp only [Prod.mk.injEq]
        refine ⟨?_, ?_, hfiltercongr⟩
        · rw [List.map_cons]
          congr 1
          simp [hmatch]
        · simp only [if_true]
          rw [List.filter_cons]
          have hck : (!hasKey (k, cr).1 deletes) = true := by simp [hmatch]
          rw [hck, if_pos rfl, List.map_cons]
    · have hrest := ih (delKey k deletes) hA.2 (nodup_delKey hD)
      rw [getMovesLoop, if_pos hmatch, hrest]
      have hmapcongr :
          rest.map (fun kv =>
            if hasKey kv.1 (delKey k deletes) then kv.2
            else if specialOk then kv.2 else {kv.2 with action := "add"}) =
          rest.map (fun kv =>
            if hasKey kv.1 deletes then kv.2
            else if specialOk then kv.2 else {kv.2 with action := "add"}) := by
        refine List.map_congr_left ?_
        intro kv hkv
        rw [hasKey_delKey (hknotin kv hkv) hD]
      have hfiltercongr2 :
          rest.filter (fun kv => !hasKey kv.1 (delKey k deletes)) =
          rest.filter (fun kv => !hasKey kv.1 deletes) := by
        refine List.filter_congr ?_
        intro kv hkv
        rw [hasKey_delKey (hknotin kv hkv) hD]
      have hremaining :
          (delKey k deletes).filter (fun kv => !hasKey kv.1 rest) =
          deletes.filter (fun kv => !hasKey kv.1 ((k, cr) :: rest)) := by
        rw [delKey_eq_filter hD, List.filter_filter]
        refine List.filter_congr ?_
        intro kv _
        rw [hasKey_cons, Bool.not_or, Bool.and_comm]
        have hdec : decide (kv.1 = k) = decide (k = kv.1) := by
          simp [eq_comm]
        rw [hdec]
      simp only [Prod.mk.injEq]
      refine ⟨?_, ?_, hremaining⟩
      · rw [hmapcongr, List.map_cons]
        congr 1
        simp [hmatch]
      · rw [hfiltercongr2, List.filter_cons]
        have hck : (!hasKey (k, cr).1 deletes) = false := by simp [hmatch]
        rw [hck]
        simp

/-- C3: `getMoves` pairs move/adds and move/deletes by the move/add's partner
depot path: adds whose key is matched keep their action and consume the
delete entry; unpaired adds become `add` unless special-move support is
available, in which case they are returned (action unchanged) in the
special-moves list; unpaired deletes become `delete` and are appended. -/
theorem getMoves_spec (specialOk : Bool)
    (adds deletes : List (String × ChangeRevision))
    (hA : (adds.map Prod.fst).Nodup) (hD : (deletes.map Prod.fst).Nodup) :
    getMoves specialOk adds deletes =
      (adds.map (fun kv =>
        if hasKey kv.1 deletes then kv.2
        else if specialOk then kv.2 else {kv.2 with action := "add"})
        ++ (deletes.filter (fun kv => !hasKey kv.1 adds)).map
            (fun kv => {kv.2 with action := "delete"}),
       if specialOk then
         (adds.filter (fun kv => !hasKey kv.1 deletes)).map Prod.snd
       else []) := by
  rw [getMoves, getMovesLoop_spec specialOk adds deletes hA hD]

/-- Concrete move/add revisions for the C3 witness. -/
def crMoveAdd1 : ChangeRevision :=
  {rev := "2", action := "move/add", type := "text", depotFile := "//d/new1",
   localFile := "//c/new1", fileSize := "10", digest := "D1",
   integrations := []}

/-- Second concrete move/add revision (its partner delete is unmatched). -/
def crMoveAdd2 : ChangeRevision :=
  {rev := "2", action := "move/add", type := "text", depotFile := "//d/new2",
   localFile := "//c/new2", fileSize := "20", digest := "D2",
   integrations := []}

/-- Concrete move/delete revision for the C3 witness. -/
def crMoveDel1 : ChangeRevision :=
  {rev := "5", action := "move/delete", type := "text",
   depotFile := "//d/old1", localFile := "//c/old1", fileSize := "0",
   digest := "", integrations := []}

/-- Concrete unmatched move/delete revision for the C3 witness. -/
def crMoveDel3 : ChangeRevision :=
  {rev := "6", action := "move/delete", type := "text",
   depotFile := "//d/old3", localFile := "//c/old3", fileSize := "0",
   digest := "", integrations := []}

theorem getMoves_spec_witness :
    getMoves true [("//d/old1", crMoveAdd1), ("//d/old2", crMoveAdd2)]
        [("//d/old1", crMoveDel1), ("//d/old3", crMoveDel3)] =
      ([("//d/old1", crMoveAdd1), ("//d/old2", crMoveAdd2)].map
          (fun kv =>
            if hasKey kv.1 [("//d/old1", crMoveDel1), ("//d/old3", crMoveDel3)]
            then kv.2
            else if true then kv.2 else {kv.2 with action := "add"})
        ++ (([("//d/old1", crMoveDel1), ("//d/old3", crMoveDel3)].filter
              (fun kv =>
                !hasKey kv.1 [("//d/old1", crMoveAdd1), ("//d/old2", crMoveAdd2)])).map
            (fun kv => {kv.2 with action := "delete"})),
       if true then
         (([("//d/old1", crMoveAdd1), ("//d/old2", crMoveAdd2)].filter
            (fun kv =>
              !hasKey kv.1 [("//d/old1", crMoveDel1), ("//d/old3", crMoveDel3)])).map
           Prod.snd)
       else []) :=
  getMoves_spec true _ _ (by decide) (by decide)

/-! ### Integration replay order (src/P4Transfer.py lines 681-684 and
2065-2086) -/

/-- Embedding of `ChangeRevision.integrations` (lines 681-684):
`reversed(list(enumerate(self._integrations)))`. -/
def integrationsList (l : List Integration) : List (Nat × Integration) :=
  l.enum.reverse

/-- Python truthiness of an optional string (`None` and `""` are falsy). -/
def pyTruthy : Option String → Bool
  | none => false
  | some s => !(s = "" : Bool)

/-- An edge reaches the `how` dispatch of the replay loop (lines 2081-2090):
it is skipped when `how` is `add from`/`moved from` or its source is
unmapped (`localFile is None`). -/
def replayKeep (integ : Integration) : Bool :=
  !((integ.how = "add from" : Bool) || (integ.how = "moved from" : Bool))
    && integ.localFile.isSome

/-- The ordered list of (index, edge) pairs processed by
`P4Target.replicateIntegration` (lines 2076-2090): guarded by
`ignore_integrations`, a non-empty integration list, and truthiness of the
first edge's `localFile`; edges with index above `startInd` (defaulting to
the number of integrations, line 2079-2080) are skipped. -/
def replicateIntegrationOrder (ignoreIntegrations : Bool)
    (integs : List Integration) (startInd : Option Nat) :
    List (Nat × Integration) :=
  match integs with
  | [] => []
  | first :: _ =>
    if ignoreIntegrations then []
    else if pyTruthy first.localFile = false then []
    else
      (integrationsList integs).filter
        (fun p => decide (p.1 ≤ startInd.getD integs.length) && replayKeep p.2)

theorem replicateIntegrationOrder_sublist (ii : Bool)
    (integs : List Integration) (si : Option Nat) :
    (replicateIntegrationOrder ii integs si).Sublist
      (integrationsList integs) := by
  rw [replicateIntegrationOrder.eq_def]
  cases integs with
  | nil => exact List.nil_sublist _
  | cons first rest =>
    dsimp only
    split
    · exact List.nil_sublist _
    · split
      · exact List.nil_sublist _
      · exact List.filter_sublist _

theorem integrationsList_pairwise (l : List Integration) :
    (integrationsList l).Pairwise (fun p q => q.1 < p.1) := by
  rw [integrationsList, List.pairwise_reverse]
  have h1 : (l.enum.map Prod.fst).Pairwise (fun a b => a < b) := by
    rw [List.enum_map_fst]
    exact List.pairwise_lt_range l.length
  exact (List.pairwise_map.mp h1)

theorem zeroFst_getLast {l : List (Nat × Integration)}
    (hp : l.Pairwise (fun p q => q.1 < p.1)) {e : Integration}
    (hm : (0, e) ∈ l) : l.getLast? = some (0, e) := by
  induction l with
  | nil => cases hm
  | cons x rest ih =>
    rw [List.pairwise_cons] at hp
    cases rest with
    | nil =>
      rcases List.mem_cons.mp hm with h | h
      · rw [← h]; rfl
      · cases h
    | cons y rest2 =>
      have hlast : (x :: y :: rest2).getLast? = (y :: rest2).getLast? := rfl
      rcases List.mem_cons.mp hm with h | h
      · exfalso
        have := hp.1 y (List.mem_cons_self y rest2)
        rw [← h] at this
        exact Nat.not_lt_zero _ this
      · rw [hlast]
        exact ih hp.2 h

/-- C2: `integrations()` yields (index, edge) pairs from the last-added edge
down to the first; the replay loop of `replicateIntegration` processes the
surviving edges in that strictly decreasing index order, so the terminal
(first-listed, index 0) edge, when processed at all, is processed last. -/
theorem replicateIntegration_reverse_order (integs : List Integration)
    (hlen : 1 < integs.length) (ii : Bool) (si : Option Nat) :
    (∀ i, i < integs.length →
      (integrationsList integs)[i]? =
        (integs[integs.length - 1 - i]?).map
          (fun e => (integs.length - 1 - i, e))) ∧
    (replicateIntegrationOrder ii integs si).Pairwise (fun p q => q.1 < p.1) ∧
    (∀ e : Integration, (0, e) ∈ replicateIntegrationOrder ii integs si →
      (replicateIntegrationOrder ii integs si).getLast? = some (0, e)) := by
  have hpair : (replicateIntegrationOrder ii integs si).Pairwise
      (fun p q => q.1 < p.1) :=
    List.Pairwise.sublist (replicateIntegrationOrder_sublist ii integs si)
      (integrationsList_pairwise integs)
  refine ⟨?_, hpair, fun e hm => zeroFst_getLast hpair hm⟩
  intro i hi
  rw [integrationsList,
    List.getElem?_reverse (by rw [List.enum_length]; exact hi),
    List.enum_length, List.getElem?_enum]

/-- Concrete edges for the C2 witness: a branch-from terminal edge below a
copy-from edge. -/
def exInteg0 : Integration :=
  {how := "branch from", file := "//d/src0", localFile := some "//c/src0",
   srev := 0, erev := 3}

/-- Second concrete edge for the C2 witness. -/
def exInteg1 : Integration :=
  {how := "copy from", file := "//d/src1", localFile := some "//c/src1",
   srev := 1, erev := 4}

theorem replicateIntegration_reverse_order_witness :
    (replicateIntegrationOrder false [exInteg0, exInteg1] none).Pairwise
      (fun p q => q.1 < p.1) ∧
    (replicateIntegrationOrder false [exInteg0, exInteg1] none).getLast? =
      some (0, exInteg0) :=
  ⟨(replicateIntegration_reverse_order [exInteg0, exInteg1] (by decide)
      false none).2.1,
   (replicateIntegration_reverse_order [exInteg0, exInteg1] (by decide)
      false none).2.2 exInteg0 (by decide)⟩

/-! ### adjustHistoricalIntegrations (src/P4Transfer.py lines 1184-1218)

The `p4 filelog -m1 file@startChange-1` lookup is modelled by `oracle`: it
maps a depot path to the revision number of the file's newest revision as of
`historical_start_change - 1` (the first kept revision), or `none` when the
file has no revision before the start change.  `self.srcFileLogCache` is the
association list `cache`. -/

/-- One iteration of the `for ind, integ in chRev.integrations()` loop body
(lines 1192-1217): possibly populate the cache (skipped for `moved from`
edges), then shift the edge's range by the cached offset; returns the
adjusted edge, whether it was appended to `integsToDelete` (`erev <= 0`),
and the updated cache. -/
def adjustStep (oracle : String → Option Int) (cache : List (String × Int))
    (integ : Integration) : Integration × Bool × List (String × Int) :=
  let cache1 :=
    if (List.lookup integ.file cache).isNone then
      if integ.how = "moved from" then cache
      else
        match oracle integ.file with
        | some r => (integ.file, r) :: cache
        | none => cache
    else cache
  match List.lookup integ.file cache1 with
  | none => (integ, false, cache1)
  | some startRev =>
    let offset := startRev - 1
    let erev1 := integ.erev - offset
    let srev1 := integ.srev - offset
    ({integ with erev := erev1, srev := if srev1 < 0 then 0 else srev1},
     decide (erev1 ≤ 0), cache1)

/-- The per-revision edge loop: edges are visited in `integrations()` order
(last-listed edge first), and the edges collected in `integsToDelete` are
removed afterwards by `deleteIntegrations`.  Recursing on the tail first
realises the reverse visit order while rebuilding the surviving edges in
original order. -/
def adjustIntegrations (oracle : String → Option Int) :
    List Integration → List (String × Int) →
    List Integration × List (String × Int)
  | [], cache => ([], cache)
  | e :: rest, cache =>
    let r := adjustIntegrations oracle rest cache
    let s := adjustStep oracle r.2 e
    ((if s.2.1 then [] else [s.1]) ++ r.1, s.2.2)

/-- Embedding of `P4Source.adjustHistoricalIntegrations` over the `fileRevs`
list, threading the persistent `srcFileLogCache`; revisions without
integrations are skipped (line 1189). -/
def adjustHistoricalIntegrations (oracle : String → Option Int) :
    List ChangeRevision → List (String × Int) →
    List ChangeRevision × List (String × Int)
  | [], cache => ([], cache)
  | cr :: rest, cache =>
    if cr.integrations.isEmpty then
      let r := adjustHistoricalIntegrations oracle rest cache
      (cr :: r.1, r.2)
    else
      let a := adjustIntegrations oracle cr.integrations cache
      let r := adjustHistoricalIntegrations oracle rest a.2
      ({cr with integrations := a.1} :: r.1, r.2)

/-- The claim's description of one edge's fate: when the file first appeared
before the start change (oracle yields the first kept revision `k`), shift
the range by `k - 1` with `srev` clamped at 0 and drop the edge if the new
`erev` is not positive; otherwise keep the edge untouched. -/
def claimShift (oracle : String → Option Int) (e : Integration) :
    List Integration :=
  match oracle e.file with
  | none => [e]
  | some k =>
    if e.erev - (k - 1) ≤ 0 then []
    else
      [{e with erev := e.erev - (k - 1),
               srev := if e.srev - (k - 1) < 0 then 0 else e.srev - (k - 1)}]

/-- Cache soundness: every cached first-kept revision agrees with the
filelog oracle. -/
def cacheAgrees (oracle : String → Option Int)
    (cache : List (String × Int)) : Prop :=
  ∀ f r, List.lookup f cache = some r → oracle f = some r

theorem lookup_pair_cons (f f0 : String) (r0 : Int)
    (cache : List (String × Int)) :
    List.lookup f ((f0, r0) :: cache) =
      if f = f0 then some r0 else List.lookup f cache := by
  rw [List.lookup]
  by_cases hf : f = f0
  · have hbeq : (f == f0) = true := by simp [hf]
    rw [hbeq, if_pos hf]
  · have hbeq : (f == f0) = false := by simp [hf]
    rw [hbeq, if_neg hf]

theorem cacheAgrees_cons {oracle : String → Option Int}
    {cache : List (String × Int)} (h : cacheAgrees oracle cache)
    {f0 : String} {r0 : Int} (h0 : oracle f0 = some r0) :
    cacheAgrees oracle ((f0, r0) :: cache) := by
  intro f r hl
  rw [lookup_pair_cons] at hl
  by_cases hf : f = f0
  · rw [if_pos hf] at hl
    rw [hf, h0, Option.some.inj hl]
  · rw [if_neg hf] at hl
    exact h f r hl

theorem adjustStep_agrees {oracle : String → Option Int}
    {cache : List (String × Int)} (h : cacheAgrees oracle cache)
    (e : Integration) : cacheAgrees oracle (adjustStep oracle cache e).2.2 := by
  rw [adjustStep]
  have hcache1 : ∀ c1 : List (String × Int),
      c1 = (if (List.lookup e.file cache).isNone then
              if e.how = "moved from" then cache
              else
                match oracle e.file with
                | some r => (e.file, r) :: cache
                | none => cache
            else cache) → cacheAgrees oracle c1 := by
    intro c1 hc1
    subst hc1
    split
    · split
      · exact h
      · split
        · next r hor => exact cacheAgrees_cons h hor
        · exact h
    · exact h
  have hagree1 := hcache1 _ rfl
  dsimp only
  split
  · exact hagree1
  · exact hagree1

theorem adjustIntegrations_agrees {oracle : String → Option Int}
    (l : List Integration) {cache : List (String × Int)}
    (h : cacheAgrees oracle cache) :
    cacheAgrees oracle (adjustIntegrations oracle l cache).2 := by
  induction l generalizing cache with
  | nil => exact h
  | cons e rest ih =>
    rw [adjustIntegrations]
    exact adjustStep_agrees (ih h) e

/-- For an edge that is not `moved from`, the step's outcome (kept/adjusted
/dropped) is exactly the claim's `claimShift`, provided the cache agrees
with the oracle. -/
theorem adjustStep_spec {oracle : String → Option Int}
    {cache : List (String × Int)} (h : cacheAgrees oracle cache)
    (e : Integration) (he : e.how ≠ "moved from") :
    (if (adjustStep oracle cache e).2.1 then []
     else [(adjustStep oracle cache e).1]) = claimShift oracle e := by
  rw [adjustStep, claimShift]
  cases hl : List.lookup e.file cache with
  | some r =>
    have hor : oracle e.file = some r := h e.file r hl
    rw [hor]
    simp only [hl, Option.isNone_some, Bool.false_eq_true, if_false, hl]
    by_cases herev : e.erev - (r - 1) ≤ 0
    · rw [if_pos (by simpa using herev)]
      simp [herev]
    · rw [if_neg (by simpa using herev)]
      simp [herev]
  | none =>
    simp only [hl, Option.isNone_none, if_true, if_neg he]
    cases hor : oracle e.file with
    | none =>
      simp only [hl]
      rfl
    | some r =>
      have hself : List.lookup e.file ((e.file, r) :: cache) = some r := by
        simp [List.lookup]
      simp only [hself]
      by_cases herev : e.erev - (r - 1) ≤ 0
      · rw [if_pos (by simpa using herev)]
        simp [herev]
      · rw [if_neg (by simpa using herev)]
        simp [herev]

theorem adjustIntegrations_append (oracle : String → Option Int)
    (xs ys : List Integration) (cache : List (String × Int)) :
    adjustIntegrations oracle (xs ++ ys) cache =
      ((adjustIntegrations oracle xs
          (adjustIntegrations oracle ys cache).2).1
        ++ (adjustIntegrations oracle ys cache).1,
       (adjustIntegrations oracle xs
          (adjustIntegrations oracle ys cache).2).2) := by
  induction xs with
  | nil => simp [adjustIntegrations]
  | cons x xs ih =>
    rw [List.cons_append, adjustIntegrations, ih, adjustIntegrations]
    simp [List.append_assoc]

/-- Concrete oracle for the C7 counterexample: the integration source file
first appeared before the historical start change, with first kept
revision 3. -/
def cexOracle : String → Option Int :=
  fun f => if f = "//depot/src/f" then some 3 else none

/-- A `moved from` integration edge on that file. -/
def cexMovedFromEdge : Integration :=
  {how := "moved from", file := "//depot/src/f",
   localFile := some "//c/src/f", srev := 0, erev := 5}

/-- A revision carrying only that `moved from` edge. -/
def cexMovedFromRev : ChangeRevision :=
  {rev := "1", action := "move/add", type := "text", depotFile := "//d/t",
   localFile := "//c/t", fileSize := "5", digest := "X",
   integrations := [cexMovedFromEdge]}

/-- C7 counterexample: the source file of the `moved from` edge first
appears before the start change (oracle yields first kept revision 3), yet
`adjustHistoricalIntegrations` leaves the edge's range unshifted, while the
claim demands `erev -= 2` (and `srev` clamped at 0). -/
theorem adjustHistoricalIntegrations_counterexample :
    cexOracle cexMovedFromEdge.file = some 3 ∧
    (adjustHistoricalIntegrations cexOracle [cexMovedFromRev] []).1 =
      [cexMovedFromRev] ∧
    claimShift cexOracle cexMovedFromEdge =
      [{cexMovedFromEdge with erev := 3, srev := 0}] ∧
    cexMovedFromRev.integrations ≠
      [{cexMovedFromEdge with erev := 3, srev := 0}] := by
  refine ⟨rfl, ?_, ?_, by decide⟩
  · rfl
  · rfl

/-- C7 amended: with the historical start configured, every integration edge
other than `moved from` edges (which are only adjusted when their file is
already cached from another edge's lookup) is shifted by
`erev -= firstKeptRev - 1` (same offset for `srev`, clamped at 0) when its
source file first appeared before the start change, is left untouched when
it did not, and is removed when the resulting `erev <= 0`. -/
theorem adjustHistoricalIntegrations_amended (oracle : String → Option Int)
    (cache : List (String × Int)) (h : cacheAgrees oracle cache)
    (cr : ChangeRevision) (l1 l2 : List Integration) (e : Integration)
    (hcr : cr.integrations = l1 ++ e :: l2) (he : e.how ≠ "moved from") :
    (adjustHistoricalIntegrations oracle [cr] cache).1 =
      [{cr with integrations :=
        ((adjustIntegrations oracle l1
            (adjustStep oracle (adjustIntegrations oracle l2 cache).2 e).2.2).1
          ++ claimShift oracle e
          ++ (adjustIntegrations oracle l2 cache).1)}] := by
  have hne : cr.integrations.isEmpty = false := by
    rw [hcr]
    cases l1 <;> rfl
  have hunfold : adjustHistoricalIntegrations oracle [cr] cache =
      ({cr with integrations :=
          (adjustIntegrations oracle cr.integrations cache).1} ::
        (adjustHistoricalIntegrations oracle []
          (adjustIntegrations oracle cr.integrations cache).2).1,
       (adjustHistoricalIntegrations oracle []
          (adjustIntegrations oracle cr.integrations cache).2).2) := by
    rw [adjustHistoricalIntegrations.eq_def]
    dsimp only
    rw [if_neg (by simp [hne])]
  rw [hunfold]
  dsimp only
  congr 2
  rw [hcr, adjustIntegrations_append oracle l1 (e :: l2) cache]
  dsimp only
  rw [adjustIntegrations]
  dsimp only
  rw [adjustStep_spec (adjustIntegrations_agrees l2 h) e he]
  rw [List.append_assoc]

/-- Concrete non-moved-from edge for the C7 amended witness. -/
def exBranchEdge : Integration :=
  {how := "branch from", file := "//depot/src/f",
   localFile := some "//c/src/f", srev := 0, erev := 5}

/-- Revision carrying the branch edge for the C7 amended witness. -/
def exBranchRev : ChangeRevision :=
  {rev := "2", action := "branch", type := "text", depotFile := "//d/b",
   localFile := "//c/b", fileSize := "7", digest := "Y",
   integrations := [exBranchEdge]}

theorem adjustHistoricalIntegrations_amended_witness :
    (adjustHistoricalIntegrations cexOracle [exBranchRev] []).1 =
      [{exBranchRev with integrations :=
        ((adjustIntegrations cexOracle []
            (adjustStep cexOracle (adjustIntegrations cexOracle [] []).2
              exBranchEdge).2.2).1
          ++ claimShift cexOracle exBranchEdge
          ++ (adjustIntegrations cexOracle [] []).1)}] :=
  adjustHistoricalIntegrations_amended cexOracle []
    (fun _ _ hfr => Option.noConfusion hfr) exBranchRev [] [] exBranchEdge
    rfl (by decide)

/-! ### initChangeMapFile (src/P4Transfer.py lines 2223-2251)

The p4 answers are parameters: `depotHasFile` models a non-empty `p4 fstat`
result, `localExists` models `os.path.exists(fpath)`, `reconcileAction` is
the `action` field of the `p4 reconcile` output.  The record collects the
file-creating effects the claim is about. -/

/-- Observable effects of `initChangeMapFile` on the change map file. -/
structure ChangeMapInit where
  headerWritten : Option String
  reopenedType : Option String
  synced : Bool
  editOpened : Bool
deriving DecidableEq

/-- The header line written on creation (line 2239). -/
def changeMapHeader : String := "sourceP4Port,sourceChangeNo,targetChangeNo\n"

/-- Embedding of `P4Target.initChangeMapFile` (lines 2223-2242): no-op when
no change map file is configured; sync/edit when the file already exists in
the depot; otherwise create it with the header line and, when the reconcile
reports an add, reopen it as `text+CS32`. -/
def initChangeMapFile (changeMapFile : Option String)
    (depotHasFile localExists : Bool) (reconcileAction : String) :
    ChangeMapInit :=
  match changeMapFile with
  | none =>
    {headerWritten := none, reopenedType := none, synced := false,
     editOpened := false}
  | some _ =>
    if depotHasFile then
      {headerWritten := none, reopenedType := none, synced := !localExists,
       editOpened := true}
    else
      {headerWritten := some changeMapHeader,
       reopenedType :=
         if reconcileAction = "add" then some "text+CS32" else none,
       synced := false, editOpened := false}

/-- C8 counterexample: the header actually written is
`sourceP4Port,sourceChangeNo,targetChangeNo`, not the claimed
`sourcePort,sourceChangeNo,targetChangeNo`. -/
theorem initChangeMapFile_counterexample :
    (initChangeMapFile (some "fetch_transfer.csv") false false
        "add").headerWritten =
      some "sourceP4Port,sourceChangeNo,targetChangeNo\n" ∧
    ("sourceP4Port,sourceChangeNo,targetChangeNo\n" : String) ≠
      "sourcePort,sourceChangeNo,targetChangeNo\n" :=
  ⟨rfl, by decide⟩

/-- C8 amended: when the configured change map file does not yet exist on
the target, it is created with the single header line
`sourceP4Port,sourceChangeNo,targetChangeNo` and (the reconcile of the fresh
file reporting an add) reopened with filetype `text+CS32`, the type whose
`S32` modifier caps the stored revisions at 32. -/
theorem initChangeMapFile_amended (cfg : String) (localExists : Bool) :
    (initChangeMapFile (some cfg) false localExists "add").headerWritten =
      some changeMapHeader ∧
    changeMapHeader = "sourceP4Port,sourceChangeNo,targetChangeNo\n" ∧
    (initChangeMapFile (some cfg) false localExists "add").reopenedType =
      some "text+CS32" :=
  ⟨rfl, rfl, rfl⟩

/-! ### The replication loop and the target counter
(src/P4Transfer.py lines 2433-2489, 1579-1652, 1692-1738)

Per-change processing is abstracted to its observable effects on the target:
a successful submit (`P4Target.replicateChange`, line 1610 and its recovery
paths, collapsed into `submitOk`), the equivalence check
(`P4Target.validateSubmittedChange`, verdict of
`ChangelistComparer.listsEqual` collapsed into `checkEqual`), the counter
write (`setCounter`, line 2479) and the change map append (line 2480).
Exceptions (`P4.P4Exception` from the submit, `P4TLogicException` from the
check) abort the loop; the abort flag is the second component. -/

end P4T
